import Mathlib

/-!
Verification of the CRDT cluster (src/crdt-cluster/src): shallow embedding of
the six CRDT variants' merge/query/local-op code and proofs about them.

Python dicts are modelled as association lists `List (String × τ)` with
first-match lookup; `aset` replaces the first binding in place or appends a
fresh one at the end, matching Python dict update/insert order. Python sets
are modelled as lists up to membership. Python string comparison (used for
ISO timestamps) is code-point lexicographic and is modelled by `tsLt`.
-/

namespace CRDT

/-- Lookup of a key in an association list (first match), modelling `dict.get`. -/
def alookup {τ : Type} : List (String × τ) → String → Option τ
  | [], _ => none
  | (k', v) :: rest, k => if k' = k then some v else alookup rest k

/-- In-place update of the first binding of `k`, appending when absent,
modelling `d[k] = v` on a Python dict. -/
def aset {τ : Type} : List (String × τ) → String → τ → List (String × τ)
  | [], k, v => [(k, v)]
  | (k', v') :: rest, k, v =>
      if k' = k then (k, v) :: rest else (k', v') :: aset rest k v

/-- Deletion of the bindings of `k`, modelling `del d[k]`. -/
def adelete {τ : Type} : List (String × τ) → String → List (String × τ)
  | [], _ => []
  | (k', v) :: rest, k =>
      if k' = k then adelete rest k else (k', v) :: adelete rest k

/-- Keys of an association list. -/
def akeys {τ : Type} (m : List (String × τ)) : List String :=
  m.map Prod.fst

theorem alookup_aset_self {τ : Type} (m : List (String × τ)) (k : String) (v : τ) :
    alookup (aset m k v) k = some v := by
  induction m with
  | nil => simp [aset, alookup]
  | cons p rest ih =>
      obtain ⟨k', v'⟩ := p
      by_cases h : k' = k
      · simp [aset, h, alookup]
      · simp [aset, h, alookup, ih]

theorem alookup_aset_ne {τ : Type} (m : List (String × τ)) (k k' : String) (v : τ)
    (h : k' ≠ k) : alookup (aset m k v) k' = alookup m k' := by
  induction m with
  | nil => simp [aset, alookup, Ne.symm h]
  | cons p rest ih =>
      obtain ⟨k₀, v₀⟩ := p
      by_cases h0 : k₀ = k
      · subst h0
        simp [aset, alookup, Ne.symm h]
      · simp [aset, h0, alookup, ih]

theorem alookup_adelete_self {τ : Type} (m : List (String × τ)) (k : String) :
    alookup (adelete m k) k = none := by
  induction m with
  | nil => rfl
  | cons p rest ih =>
      obtain ⟨k₀, v₀⟩ := p
      by_cases h0 : k₀ = k
      · simpa [adelete, h0] using ih
      · simp [adelete, h0, alookup, ih]

theorem alookup_adelete_ne {τ : Type} (m : List (String × τ)) (k k' : String)
    (h : k' ≠ k) : alookup (adelete m k) k' = alookup m k' := by
  induction m with
  | nil => rfl
  | cons p rest ih =>
      obtain ⟨k₀, v₀⟩ := p
      by_cases h0 : k₀ = k
      · subst h0
        simp [adelete, alookup, Ne.symm h, ih]
      · simp [adelete, h0, alookup, ih]

theorem alookup_eq_none_of_not_mem {τ : Type} (m : List (String × τ)) (k : String)
    (h : k ∉ akeys m) : alookup m k = none := by
  induction m with
  | nil => rfl
  | cons p rest ih =>
      obtain ⟨k₀, v₀⟩ := p
      simp only [akeys, List.map_cons, List.mem_cons] at h
      push_neg at h
      have h1 : ¬ k₀ = k := fun hh => h.1 hh.symm
      simp [alookup, h1, ih (by simpa [akeys] using h.2)]

theorem akeys_aset {τ : Type} (m : List (String × τ)) (k k' : String) (v : τ) :
    k' ∈ akeys (aset m k v) ↔ k' = k ∨ k' ∈ akeys m := by
  induction m with
  | nil => simp [aset, akeys]
  | cons p rest ih =>
      obtain ⟨k₀, v₀⟩ := p
      by_cases h0 : k₀ = k
      · subst h0
        simp [aset, akeys]
      · simp [aset, h0, akeys] at ih ⊢
        tauto

theorem akeys_aset_nodup {τ : Type} (m : List (String × τ)) (k : String) (v : τ)
    (h : (akeys m).Nodup) : (akeys (aset m k v)).Nodup := by
  induction m with
  | nil => simp [aset, akeys]
  | cons p rest ih =>
      obtain ⟨k₀, v₀⟩ := p
      simp only [akeys, List.map_cons, List.nodup_cons] at h
      by_cases h0 : k₀ = k
      · subst h0
        simp only [aset, if_pos rfl]
        simpa [akeys] using h
      · simp only [aset, if_neg h0, akeys, List.map_cons, List.nodup_cons]
        refine ⟨?_, by simpa [akeys] using ih h.2⟩
        intro hmem
        rcases (akeys_aset rest k k₀ v).mp (by simpa [akeys] using hmem) with h1 | h1
        · exact h0 h1
        · exact h.1 (by simpa [akeys] using h1)

/-! ## Timestamp order

Python compares ISO timestamp strings with `>` / `<`, i.e. code-point
lexicographic order on the characters. `tsLt s t` is that comparison. -/

/-- Code-point lexicographic strict order on character lists. -/
def charListLt : List Char → List Char → Bool
  | [], [] => false
  | [], _ :: _ => true
  | _ :: _, [] => false
  | a :: as, b :: bs =>
      if a.toNat < b.toNat then true
      else if b.toNat < a.toNat then false
      else charListLt as bs

/-- Python `s < t` on strings (lexicographic by code point). -/
def tsLt (s t : String) : Bool := charListLt s.data t.data

theorem charListLt_irrefl (l : List Char) : charListLt l l = false := by
  induction l with
  | nil => rfl
  | cons a as ih => simp [charListLt, ih]

theorem charListLt_asymm (l₁ l₂ : List Char) (h : charListLt l₁ l₂ = true) :
    charListLt l₂ l₁ = false := by
  induction l₁ generalizing l₂ with
  | nil =>
      cases l₂ with
      | nil => simp [charListLt] at h
      | cons b bs => rfl
  | cons a as ih =>
      cases l₂ with
      | nil => simp [charListLt] at h
      | cons b bs =>
          by_cases h1 : a.toNat < b.toNat
          · have h2 : ¬ b.toNat < a.toNat := by omega
            simp [charListLt, h1, h2]
          · by_cases h2 : b.toNat < a.toNat
            · simp [charListLt, h1, h2] at h
            · simp only [charListLt, if_neg h1, if_neg h2] at h
              simp [charListLt, h1, h2, ih bs h]

theorem charListLt_conn (l₁ l₂ : List Char) (h1 : charListLt l₁ l₂ = false)
    (h2 : charListLt l₂ l₁ = false) : l₁ = l₂ := by
  induction l₁ generalizing l₂ with
  | nil =>
      cases l₂ with
      | nil => rfl
      | cons b bs => simp [charListLt] at h1
  | cons a as ih =>
      cases l₂ with
      | nil => simp [charListLt] at h2
      | cons b bs =>
          by_cases hab : a.toNat < b.toNat
          · simp [charListLt, hab] at h1
          · by_cases hba : b.toNat < a.toNat
            · simp [charListLt, hba, hab] at h2
            · have hval : a = b := by
                have : a.toNat = b.toNat := by omega
                exact Char.ext (by
                  have := congrArg (UInt32.ofNat) this
                  simpa [Char.toNat, UInt32.toNat, UInt32.ofNat] using this)
              subst hval
              simp only [charListLt, if_neg hab, if_neg hba] at h1 h2
              rw [ih bs h1 h2]

theorem tsLt_irrefl (s : String) : tsLt s s = false :=
  charListLt_irrefl s.data

theorem tsLt_asymm (s t : String) (h : tsLt s t = true) : tsLt t s = false :=
  charListLt_asymm s.data t.data h

theorem tsLt_conn (s t : String) (h1 : tsLt s t = false) (h2 : tsLt t s = false) :
    s = t := by
  cases s with
  | mk d₁ =>
      cases t with
      | mk d₂ => exact congrArg String.mk (charListLt_conn d₁ d₂ h1 h2)

/-! ## Set-as-list operations (Python `set`) -/

/-- `s.add(e)` up to membership. -/
def sadd (l : List String) (e : String) : List String :=
  if e ∈ l then l else l ++ [e]

/-- `s |= t` up to membership. -/
def sunion (l₁ l₂ : List String) : List String :=
  l₁ ++ l₂.filter (fun e => decide (e ∉ l₁))

/-- `t - s` (set difference) up to membership. -/
def sdiff (l₁ l₂ : List String) : List String :=
  l₁.filter (fun e => decide (e ∉ l₂))

theorem mem_sadd (l : List String) (e x : String) :
    x ∈ sadd l e ↔ x ∈ l ∨ x = e := by
  by_cases h : e ∈ l
  · simp only [sadd, if_pos h]
    constructor
    · exact Or.inl
    · rintro (hx | rfl) <;> [exact hx; exact h]
  · simp [sadd, if_neg h]

theorem mem_sunion (l₁ l₂ : List String) (x : String) :
    x ∈ sunion l₁ l₂ ↔ x ∈ l₁ ∨ x ∈ l₂ := by
  simp only [sunion, List.mem_append, List.mem_filter, decide_eq_true_eq]
  tauto

theorem mem_sdiff (l₁ l₂ : List String) (x : String) :
    x ∈ sdiff l₁ l₂ ↔ x ∈ l₁ ∧ x ∉ l₂ := by
  simp [sdiff]

/-! ## G-Counter (`g_counter.py`)

State: `counters : defaultdict(int)`, modelled as an association list with
absent keys read as `0` (`lookup0`). Reachable counter values are naturals
(increments are positive, merge takes maxima), so values are `Nat`. -/

/-- `defaultdict(int)` read: missing keys are `0`. -/
def lookup0 (m : List (String × Nat)) (k : String) : Nat :=
  (alookup m k).getD 0

/-- `GCounter.merge` body: for every `(node_id, value)` in the remote
`counters` dict, adopt `value` when it strictly exceeds the local entry.
The accumulated pair carries the `merged` flag. -/
def mergeGAux : List (String × Nat) → Bool → List (String × Nat) →
    List (String × Nat) × Bool
  | m, fl, [] => (m, fl)
  | m, fl, (k, v) :: rest =>
      if lookup0 m k < v then mergeGAux (aset m k v) true rest
      else mergeGAux m fl rest

/-- `GCounter.merge` on an already-extracted remote `counters` map. -/
def mergeG (self other : List (String × Nat)) : List (String × Nat) × Bool :=
  mergeGAux self false other

/-- `GCounter.merge(other_state)` as written: `other_state['counters']` raises
`KeyError` when the decoded payload lacks the key (e.g. an empty dict `{}`).
The payload models the decoded dict: `none` = key `'counters'` absent. -/
def mergeGCounterPayload (self : List (String × Nat))
    (payload : Option (List (String × Nat))) :
    Except String (List (String × Nat) × Bool) :=
  match payload with
  | none => Except.error "KeyError: counters"
  | some cs => Except.ok (mergeG self cs)

/-- `GCounter.query`: sum of all counter values. -/
def queryG (m : List (String × Nat)) : Nat :=
  (m.map Prod.snd).sum

theorem mergeGAux_lookup0 (other : List (String × Nat))
    (hn : (akeys other).Nodup) (m : List (String × Nat)) (fl : Bool) (k : String) :
    lookup0 (mergeGAux m fl other).1 k = max (lookup0 m k) (lookup0 other k) := by
  induction other generalizing m fl with
  | nil => simp [mergeGAux, lookup0, alookup]
  | cons p rest ih =>
      obtain ⟨k₀, v₀⟩ := p
      simp only [akeys, List.map_cons, List.nodup_cons] at hn
      obtain ⟨hn1, hn2⟩ := hn
      have ihh := ih (by simpa [akeys] using hn2)
      by_cases hk : k₀ = k
      · subst hk
        have hrest : lookup0 rest k₀ = 0 := by
          simp [lookup0, alookup_eq_none_of_not_mem rest k₀ (by simpa [akeys] using hn1)]
        have hhead : lookup0 ((k₀, v₀) :: rest) k₀ = v₀ := by
          simp [lookup0, alookup]
        by_cases hlt : lookup0 m k₀ < v₀
        · rw [mergeGAux, if_pos hlt, ihh, hrest, hhead]
          have h1 : lookup0 (aset m k₀ v₀) k₀ = v₀ := by
            simp [lookup0, alookup_aset_self]
          rw [h1]
          omega
        · rw [mergeGAux, if_neg hlt, ihh, hrest, hhead]
          omega
      · have hhead : lookup0 ((k₀, v₀) :: rest) k = lookup0 rest k := by
          simp [lookup0, alookup, hk]
        by_cases hlt : lookup0 m k₀ < v₀
        · rw [mergeGAux, if_pos hlt, ihh, hhead]
          have h1 : lookup0 (aset m k₀ v₀) k = lookup0 m k := by
            simp [lookup0, alookup_aset_ne m k₀ k v₀ (Ne.symm hk)]
          rw [h1]
        · rw [mergeGAux, if_neg hlt, ihh, hhead]

theorem mergeG_lookup0 (self other : List (String × Nat))
    (hn : (akeys other).Nodup) (k : String) :
    lookup0 (mergeG self other).1 k = max (lookup0 self k) (lookup0 other k) :=
  mergeGAux_lookup0 other hn self false k

/-- Commutativity of the G-Counter join on the canonical (per-node lookup)
state. -/
theorem mergeG_comm (x y : List (String × Nat))
    (hx : (akeys x).Nodup) (hy : (akeys y).Nodup) (k : String) :
    lookup0 (mergeG x y).1 k = lookup0 (mergeG y x).1 k := by
  rw [mergeG_lookup0 x y hy k, mergeG_lookup0 y x hx k, Nat.max_comm]

/-! ## PN-Counter (`pn_counter.py`)

State: two G-Counter maps `p_counters`, `n_counters`.  Merge runs the
G-Counter per-entry maximum on both halves and ors the flags; the payload
keys `'p_counters'` / `'n_counters'` are indexed directly (KeyError when
absent). -/

structure PNState where
  p : List (String × Nat)
  n : List (String × Nat)
deriving Repr, DecidableEq

/-- `PNCounter.merge` on an already-extracted pair of remote maps. -/
def mergePN (self : PNState) (otherP otherN : List (String × Nat)) :
    PNState × Bool :=
  let rp := mergeG self.p otherP
  let rn := mergeG self.n otherN
  (⟨rp.1, rn.1⟩, rp.2 || rn.2)

/-- `PNCounter.merge(other_state)` as written: indexing `'p_counters'` /
`'n_counters'` raises `KeyError` when either key is absent from the decoded
payload (e.g. an empty dict `{}`). -/
def mergePNCounterPayload (self : PNState)
    (payload : Option (List (String × Nat)) × Option (List (String × Nat))) :
    Except String (PNState × Bool) :=
  match payload.1 with
  | none => Except.error "KeyError: p_counters"
  | some ps =>
      match payload.2 with
      | none => Except.error "KeyError: n_counters"
      | some ns => Except.ok (mergePN self ps ns)

/-- `PNCounter.query`: `sum(p) - sum(n)` (as an integer). -/
def queryPN (st : PNState) : Int :=
  (Int.ofNat (st.p.map Prod.snd).sum) - (Int.ofNat (st.n.map Prod.snd).sum)

theorem mergePN_comm (x y : PNState)
    (hxp : (akeys x.p).Nodup) (hxn : (akeys x.n).Nodup)
    (hyp : (akeys y.p).Nodup) (hyn : (akeys y.n).Nodup) (k : String) :
    lookup0 (mergePN x y.p y.n).1.p k = lookup0 (mergePN y x.p x.n).1.p k ∧
    lookup0 (mergePN x y.p y.n).1.n k = lookup0 (mergePN y x.p x.n).1.n k :=
  ⟨mergeG_comm x.p y.p hxp hyp k, mergeG_comm x.n y.n hxn hyn k⟩

/-! ## G-Set (`g_set.py`) -/

/-- `GSet.merge`: if `other_elements - self.elements` is non-empty, union it
in and report a change. -/
def mergeGSet (self other : List String) : List String × Bool :=
  let diff := sdiff other self
  if diff.isEmpty then (self, false) else (sunion self other, true)

theorem mem_mergeGSet (x y : List String) (e : String) :
    e ∈ (mergeGSet x y).1 ↔ e ∈ x ∨ e ∈ y := by
  by_cases h : (sdiff y x).isEmpty
  · simp only [mergeGSet, h, if_pos]
    constructor
    · exact Or.inl
    · rintro (he | he)
      · exact he
      · by_cases hx : e ∈ x
        · exact hx
        · exfalso
          have : e ∈ sdiff y x := (mem_sdiff y x e).mpr ⟨he, hx⟩
          rw [List.isEmpty_iff] at h
          simp [h] at this
  · simp only [mergeGSet, h, if_neg, Bool.false_eq_true, not_false_iff]
    exact mem_sunion x y e

/-- Commutativity of the G-Set join up to membership. -/
theorem mergeGSet_comm (x y : List String) (e : String) :
    e ∈ (mergeGSet x y).1 ↔ e ∈ (mergeGSet y x).1 := by
  rw [mem_mergeGSet, mem_mergeGSet]
  tauto

/-! ## 2P-Set (`two_phase_set.py`)

State: `added` / `removed` sets.  `add` refuses elements already in
`removed`; `remove` requires membership in `added` and absence from
`removed`.  `merge` filters remote additions by the local removed set, and
then filters remote removals by the *updated* local added set. -/

structure TPState where
  added : List String
  removed : List String
deriving Repr, DecidableEq

def tpEmpty : TPState := ⟨[], []⟩

/-- `TwoPhaseSet.add`: rejected (returns `False`) when the element is in the
removed set; otherwise inserted into `added`. -/
def tpAdd (st : TPState) (e : String) : TPState × Bool :=
  if e ∈ st.removed then (st, false)
  else (⟨sadd st.added e, st.removed⟩, true)

/-- `TwoPhaseSet.remove`: accepted only when the element is in `added` and
not yet in `removed`. -/
def tpRemove (st : TPState) (e : String) : TPState × Bool :=
  if e ∈ st.added ∧ e ∉ st.removed then (⟨st.added, sadd st.removed e⟩, true)
  else (st, false)

/-- `TwoPhaseSet.merge`: `valid_additions = other_added - self.removed` are
unioned into `added`; then `valid_removals = other_removed - self.added`
(with `self.added` already updated) are unioned into `removed`.  The flag is
set whenever either filtered set is non-empty. -/
def tpMerge (st : TPState) (otherAdded otherRemoved : List String) :
    TPState × Bool :=
  let validAdds := sdiff otherAdded st.removed
  let added' := if validAdds.isEmpty then st.added else sunion st.added validAdds
  let validRems := sdiff otherRemoved added'
  let removed' := if validRems.isEmpty then st.removed else sunion st.removed validRems
  (⟨added', removed'⟩, !validAdds.isEmpty || !validRems.isEmpty)

/-- The query `A \ R` (active elements). -/
def tpQuery (st : TPState) : List String :=
  sdiff st.added st.removed

/-! ## OR-Set (`or_set.py`)

State: `elements : element → set of tags` and `removed_tags`.  `add` mints a
tag (modelled as an explicit argument, since the source draws it from
`node_id`/`time`/`uuid`); `remove` tombstones every observed tag and deletes
the entry; `merge` unions tag sets per element, unions tombstones, then
garbage-collects elements whose every tag is tombstoned. -/

structure ORState where
  elements : List (String × List String)
  removed : List String
deriving Repr, DecidableEq

/-- Tag set currently recorded for an element (empty when absent). -/
def tags0 (m : List (String × List String)) (e : String) : List String :=
  (alookup m e).getD []

/-- `ORSet.add`: always succeeds, inserting the fresh `tag`. -/
def orAdd (st : ORState) (e tag : String) : ORState × Bool :=
  (⟨aset st.elements e (sadd (tags0 st.elements e) tag), st.removed⟩, true)

/-- `ORSet.remove`: moves every observed tag into `removed_tags` and deletes
the element; fails when the element is absent. -/
def orRemove (st : ORState) (e : String) : ORState × Bool :=
  match alookup st.elements e with
  | some tags => (⟨adelete st.elements e, sunion st.removed tags⟩, true)
  | none => (st, false)

/-- `ORSet.query`: keys of the element map. -/
def orQuery (st : ORState) : List String :=
  akeys st.elements

/-- First phase of `ORSet.merge`: per-element union of remote tag sets into
the local map, flagging when any new tag arrives. -/
def mergeORAux : List (String × List String) → Bool →
    List (String × List String) → List (String × List String) × Bool
  | m, fl, [] => (m, fl)
  | m, fl, (e, tags) :: rest =>
      let cur := tags0 m e
      let nt := tags.filter (fun t => decide (t ∉ cur))
      mergeORAux (aset m e (cur ++ nt)) (fl || !nt.isEmpty) rest

/-- Whether an element entry survives garbage collection: kept unless every
tag is tombstoned. -/
def orKeep (rem : List String) (p : String × List String) : Bool :=
  !(p.2.all (fun t => decide (t ∈ rem)))

/-- `ORSet.merge`: tag-set union per element, tombstone union, then drop
elements whose tags are all tombstoned (each such drop also sets the flag). -/
def mergeOR (st : ORState) (otherElements : List (String × List String))
    (otherRemoved : List String) : ORState × Bool :=
  let s1 := mergeORAux st.elements false otherElements
  let newRem := sdiff otherRemoved st.removed
  let rem' := st.removed ++ newRem
  let toRemove := s1.1.filter (fun p => !(orKeep rem' p))
  (⟨s1.1.filter (orKeep rem'), rem'⟩,
    (s1.2 || !newRem.isEmpty) || !toRemove.isEmpty)

theorem alookup_eq_none_iff {τ : Type} (m : List (String × τ)) (k : String) :
    alookup m k = none ↔ k ∉ akeys m := by
  constructor
  · intro h hmem
    induction m with
    | nil => simp [akeys] at hmem
    | cons p rest ih =>
        obtain ⟨k₀, v₀⟩ := p
        by_cases h0 : k₀ = k
        · simp [alookup, h0] at h
        · simp only [alookup, if_neg h0] at h
          simp only [akeys, List.map_cons, List.mem_cons] at hmem
          rcases hmem with h1 | h1
          · exact h0 h1.symm
          · exact ih h (by simpa [akeys] using h1)
  · exact alookup_eq_none_of_not_mem m k

theorem alookup_filter_of_not_mem {τ : Type} (m : List (String × τ))
    (f : String × τ → Bool) (k : String) (h : k ∉ akeys m) :
    alookup (m.filter f) k = none := by
  rw [alookup_eq_none_iff]
  intro hmem
  apply h
  simp only [akeys, List.mem_map] at hmem ⊢
  obtain ⟨p, hp, hpk⟩ := hmem
  exact ⟨p, List.mem_of_mem_filter hp, hpk⟩


theorem alookup_mem {τ : Type} (m : List (String × τ)) (k : String) (v : τ)
    (h : alookup m k = some v) : (k, v) ∈ m := by
  induction m with
  | nil => simp [alookup] at h
  | cons p rest ih =>
      obtain ⟨k₀, v₀⟩ := p
      by_cases h0 : k₀ = k
      · subst h0
        simp only [alookup, if_true, eq_self_iff_true, Option.some.injEq] at h
        subst h
        exact List.mem_cons_self _ _
      · simp only [alookup, if_neg h0] at h
        exact List.mem_cons_of_mem _ (ih h)

theorem mem_akeys_iff {τ : Type} (m : List (String × τ)) (k : String) :
    k ∈ akeys m ↔ alookup m k ≠ none := by
  constructor
  · intro h hn
    exact (alookup_eq_none_iff m k).mp hn h
  · intro h
    by_contra hc
    exact h (alookup_eq_none_of_not_mem m k hc)

theorem alookup_filter_some {τ : Type} (m : List (String × τ))
    (hn : (akeys m).Nodup) (f : String × τ → Bool) (k : String) (v : τ)
    (hv : alookup m k = some v) :
    alookup (m.filter f) k = if f (k, v) then some v else none := by
  induction m with
  | nil => simp [alookup] at hv
  | cons p rest ih =>
      obtain ⟨k₀, v₀⟩ := p
      simp only [akeys, List.map_cons, List.nodup_cons] at hn
      by_cases h0 : k₀ = k
      · subst h0
        simp only [alookup, if_true, eq_self_iff_true, Option.some.injEq] at hv
        subst hv
        by_cases hf : f (k₀, v₀)
        · rw [List.filter_cons, if_pos hf, if_pos hf]
          simp [alookup]
        · rw [List.filter_cons, if_neg hf, if_neg hf]
          exact alookup_filter_of_not_mem rest f k₀ (by simpa [akeys] using hn.1)
      · simp only [alookup, if_neg h0] at hv
        by_cases hf : f (k₀, v₀)
        · rw [List.filter_cons, if_pos hf]
          rw [show alookup ((k₀, v₀) :: List.filter f rest) k =
                alookup (List.filter f rest) k from by simp [alookup, h0]]
          exact ih hn.2 hv
        · rw [List.filter_cons, if_neg hf]
          exact ih hn.2 hv

/-- `orKeep` holds exactly when some tag escapes the tombstone set. -/
theorem orKeep_iff (rem : List String) (p : String × List String) :
    orKeep rem p = true ↔ ∃ t ∈ p.2, t ∉ rem := by
  constructor
  · intro h
    by_contra hc
    push_neg at hc
    have hall : p.2.all (fun t => decide (t ∈ rem)) = true :=
      List.all_eq_true.mpr (fun t ht => by simpa using hc t ht)
    simp [orKeep, hall] at h
  · rintro ⟨t, ht, hnt⟩
    simp only [orKeep, Bool.not_eq_true']
    cases hall : p.2.all (fun t => decide (t ∈ rem)) with
    | false => rfl
    | true =>
        exact absurd (by simpa using List.all_eq_true.mp hall t ht) hnt

theorem mergeORAux_nodup (others : List (String × List String))
    (m : List (String × List String)) (fl : Bool)
    (hn : (akeys m).Nodup) : (akeys (mergeORAux m fl others).1).Nodup := by
  induction others generalizing m fl with
  | nil => simpa [mergeORAux] using hn
  | cons p rest ih =>
      obtain ⟨e, tags⟩ := p
      exact ih _ _ (akeys_aset_nodup m e _ hn)

theorem mergeORAux_keys (others : List (String × List String))
    (m : List (String × List String)) (fl : Bool) (e : String) :
    e ∈ akeys (mergeORAux m fl others).1 ↔ e ∈ akeys m ∨ e ∈ akeys others := by
  induction others generalizing m fl with
  | nil => simp [mergeORAux, akeys]
  | cons p rest ih =>
      obtain ⟨e₀, tags₀⟩ := p
      rw [mergeORAux, ih, akeys_aset]
      simp only [akeys, List.map_cons, List.mem_cons]
      tauto

theorem mergeORAux_tags (others : List (String × List String))
    (hn : (akeys others).Nodup) (m : List (String × List String)) (fl : Bool)
    (e t : String) :
    t ∈ tags0 (mergeORAux m fl others).1 e ↔
      t ∈ tags0 m e ∨ t ∈ tags0 others e := by
  induction others generalizing m fl with
  | nil => simp [mergeORAux, tags0, alookup]
  | cons p rest ih =>
      obtain ⟨e₀, tags₀⟩ := p
      simp only [akeys, List.map_cons, List.nodup_cons] at hn
      have ihh := ih hn.2
      by_cases h0 : e₀ = e
      · subst h0
        have hrest : tags0 rest e₀ = [] := by
          simp [tags0, alookup_eq_none_of_not_mem rest e₀ (by simpa [akeys] using hn.1)]
        rw [mergeORAux, ihh, hrest]
        have hset : tags0 (aset m e₀ (tags0 m e₀ ++
            tags₀.filter (fun t => decide (t ∉ tags0 m e₀)))) e₀ =
            tags0 m e₀ ++ tags₀.filter (fun t => decide (t ∉ tags0 m e₀)) := by
          simp [tags0, alookup_aset_self]
        rw [hset]
        have hhead : tags0 ((e₀, tags₀) :: rest) e₀ = tags₀ := by
          simp [tags0, alookup]
        rw [hhead]
        simp only [List.mem_append, List.mem_filter, decide_eq_true_eq,
          List.not_mem_nil, or_false]
        by_cases ht : t ∈ tags0 m e₀ <;> tauto
      · rw [mergeORAux, ihh]
        have hset : tags0 (aset m e₀ (tags0 m e₀ ++
            tags₀.filter (fun t => decide (t ∉ tags0 m e₀)))) e = tags0 m e := by
          simp [tags0, alookup_aset_ne m e₀ e _ (Ne.symm h0)]
        have hhead : tags0 ((e₀, tags₀) :: rest) e = tags0 rest e := by
          simp [tags0, alookup, h0]
        rw [hset, hhead]

/-- Membership in the merged tombstone set is the union of inputs. -/
theorem mergeOR_removed_iff (st : ORState)
    (oe : List (String × List String)) (orm : List String) (x : String) :
    x ∈ (mergeOR st oe orm).1.removed ↔ x ∈ st.removed ∨ x ∈ orm := by
  simp only [mergeOR, List.mem_append, mem_sdiff]
  tauto

/-- A tag is recorded for `e` after the merge iff it was recorded on either
side and some tag of `e` (on either side) survives the merged tombstones. -/
theorem mergeOR_tags_iff (st : ORState)
    (oe : List (String × List String)) (orm : List String)
    (hn1 : (akeys st.elements).Nodup) (hn2 : (akeys oe).Nodup)
    (e t : String) :
    t ∈ tags0 (mergeOR st oe orm).1.elements e ↔
      ((t ∈ tags0 st.elements e ∨ t ∈ tags0 oe e) ∧
        ∃ u, (u ∈ tags0 st.elements e ∨ u ∈ tags0 oe e) ∧
          u ∉ st.removed ∧ u ∉ orm) := by
  have hns := mergeORAux_nodup oe st.elements false hn1
  have hrem : ∀ y : String,
      (y ∈ st.removed ++ sdiff orm st.removed) ↔ (y ∈ st.removed ∨ y ∈ orm) := by
    intro y
    simp only [List.mem_append, mem_sdiff]
    tauto
  rcases hv : alookup (mergeORAux st.elements false oe).1 e with _ | v
  · have hnone : alookup (mergeOR st oe orm).1.elements e = none := by
      simp only [mergeOR]
      exact alookup_filter_of_not_mem _ _ _ ((alookup_eq_none_iff _ _).mp hv)
    rw [alookup_eq_none_iff, mergeORAux_keys] at hv
    push_neg at hv
    have h1 : alookup st.elements e = none := alookup_eq_none_of_not_mem _ _ hv.1
    have h2 : alookup oe e = none := alookup_eq_none_of_not_mem _ _ hv.2
    simp [tags0, hnone, h1, h2]
  · have hvt : ∀ u : String, u ∈ v ↔ (u ∈ tags0 st.elements e ∨ u ∈ tags0 oe e) := by
      intro u
      have h := mergeORAux_tags oe hn2 st.elements false e u
      rwa [tags0, hv, Option.getD_some] at h
    have hlf : alookup (mergeOR st oe orm).1.elements e =
        if orKeep (st.removed ++ sdiff orm st.removed) (e, v) then some v else none := by
      simp only [mergeOR]
      exact alookup_filter_some _ hns _ e v hv
    by_cases hk : orKeep (st.removed ++ sdiff orm st.removed) (e, v) = true
    · rw [if_pos hk] at hlf
      simp only [tags0]
      rw [hlf, Option.getD_some]
      rw [orKeep_iff] at hk
      constructor
      · intro ht
        obtain ⟨u, hu, hnu⟩ := hk
        refine ⟨(hvt t).mp ht, u, (hvt u).mp hu, ?_, ?_⟩
        · intro hh
          exact hnu ((hrem u).mpr (Or.inl hh))
        · intro hh
          exact hnu ((hrem u).mpr (Or.inr hh))
      · rintro ⟨ht, -⟩
        exact (hvt t).mpr ht
    · rw [if_neg hk] at hlf
      simp only [tags0]
      rw [hlf]
      simp only [Option.getD_none, List.not_mem_nil, false_iff]
      rintro ⟨-, u, hu, hu1, hu2⟩
      apply hk
      rw [orKeep_iff]
      refine ⟨u, (hvt u).mpr hu, ?_⟩
      intro hmem
      rcases (hrem u).mp hmem with h | h
      · exact hu1 h
      · exact hu2 h

/-- An element is in the query after the merge iff it is present on either
side and has a surviving tag. -/
theorem mergeOR_query_iff (st : ORState)
    (oe : List (String × List String)) (orm : List String)
    (hn1 : (akeys st.elements).Nodup) (hn2 : (akeys oe).Nodup) (e : String) :
    e ∈ orQuery (mergeOR st oe orm).1 ↔
      ((e ∈ akeys st.elements ∨ e ∈ akeys oe) ∧
        ∃ u, (u ∈ tags0 st.elements e ∨ u ∈ tags0 oe e) ∧
          u ∉ st.removed ∧ u ∉ orm) := by
  have hns := mergeORAux_nodup oe st.elements false hn1
  have hrem : ∀ y : String,
      (y ∈ st.removed ++ sdiff orm st.removed) ↔ (y ∈ st.removed ∨ y ∈ orm) := by
    intro y
    simp only [List.mem_append, mem_sdiff]
    tauto
  rcases hv : alookup (mergeORAux st.elements false oe).1 e with _ | v
  · have hnone : alookup (mergeOR st oe orm).1.elements e = none := by
      simp only [mergeOR]
      exact alookup_filter_of_not_mem _ _ _ ((alookup_eq_none_iff _ _).mp hv)
    rw [alookup_eq_none_iff, mergeORAux_keys] at hv
    push_neg at hv
    constructor
    · intro h
      exact absurd hnone ((mem_akeys_iff _ _).mp (by simpa [orQuery] using h))
    · rintro ⟨hkeys, -⟩
      rcases hkeys with h | h
      · exact absurd h hv.1
      · exact absurd h hv.2
  · have hvt : ∀ u : String, u ∈ v ↔ (u ∈ tags0 st.elements e ∨ u ∈ tags0 oe e) := by
      intro u
      have h := mergeORAux_tags oe hn2 st.elements false e u
      rwa [tags0, hv, Option.getD_some] at h
    have hkeys : e ∈ akeys st.elements ∨ e ∈ akeys oe := by
      rw [← mergeORAux_keys oe st.elements false e, mem_akeys_iff, hv]
      exact Option.some_ne_none v
    have hlf : alookup (mergeOR st oe orm).1.elements e =
        if orKeep (st.removed ++ sdiff orm st.removed) (e, v) then some v else none := by
      simp only [mergeOR]
      exact alookup_filter_some _ hns _ e v hv
    by_cases hk : orKeep (st.removed ++ sdiff orm st.removed) (e, v) = true
    · rw [if_pos hk] at hlf
      rw [orKeep_iff] at hk
      constructor
      · intro _
        obtain ⟨u, hu, hnu⟩ := hk
        refine ⟨hkeys, u, (hvt u).mp hu, ?_, ?_⟩
        · intro hh
          exact hnu ((hrem u).mpr (Or.inl hh))
        · intro hh
          exact hnu ((hrem u).mpr (Or.inr hh))
      · intro _
        rw [orQuery, mem_akeys_iff, hlf]
        exact Option.some_ne_none v
    · rw [if_neg hk] at hlf
      constructor
      · intro h
        exact absurd hlf ((mem_akeys_iff _ _).mp (by simpa [orQuery] using h))
      · rintro ⟨-, u, hu, hu1, hu2⟩
        exfalso
        apply hk
        rw [orKeep_iff]
        refine ⟨u, (hvt u).mpr hu, ?_⟩
        intro hmem
        rcases (hrem u).mp hmem with h | h
        · exact hu1 h
        · exact hu2 h

/-- Commutativity of the OR-Set join on the canonical state (tag sets per
element, tombstone set, query). -/
theorem mergeOR_comm (x y : ORState)
    (hx : (akeys x.elements).Nodup) (hy : (akeys y.elements).Nodup) :
    (∀ e t, t ∈ tags0 (mergeOR x y.elements y.removed).1.elements e ↔
            t ∈ tags0 (mergeOR y x.elements x.removed).1.elements e) ∧
    (∀ s, s ∈ (mergeOR x y.elements y.removed).1.removed ↔
          s ∈ (mergeOR y x.elements x.removed).1.removed) ∧
    (∀ e, e ∈ orQuery (mergeOR x y.elements y.removed).1 ↔
          e ∈ orQuery (mergeOR y x.elements x.removed).1) := by
  refine ⟨?_, ?_, ?_⟩
  · intro e t
    rw [mergeOR_tags_iff x y.elements y.removed hx hy e t,
        mergeOR_tags_iff y x.elements x.removed hy hx e t]
    constructor
    · rintro ⟨h1, u, h2, h3, h4⟩
      exact ⟨Or.symm h1, u, Or.symm h2, h4, h3⟩
    · rintro ⟨h1, u, h2, h3, h4⟩
      exact ⟨Or.symm h1, u, Or.symm h2, h4, h3⟩
  · intro s
    rw [mergeOR_removed_iff, mergeOR_removed_iff]
    tauto
  · intro e
    rw [mergeOR_query_iff x y.elements y.removed hx hy e,
        mergeOR_query_iff y x.elements x.removed hy hx e]
    constructor
    · rintro ⟨h1, u, h2, h3, h4⟩
      exact ⟨Or.symm h1, u, Or.symm h2, h4, h3⟩
    · rintro ⟨h1, u, h2, h3, h4⟩
      exact ⟨Or.symm h1, u, Or.symm h2, h4, h3⟩

/-- After any `ORSet.merge`, every surviving element keeps a tag that is not
tombstoned (the garbage-collection invariant behind `query`). -/
theorem mergeOR_live_invariant (st : ORState)
    (oe : List (String × List String)) (orm : List String)
    (p : String × List String)
    (hp : p ∈ (mergeOR st oe orm).1.elements) :
    ∃ t ∈ p.2, t ∉ (mergeOR st oe orm).1.removed := by
  simp only [mergeOR, List.mem_filter] at hp
  obtain ⟨-, hkeep⟩ := hp
  rw [orKeep_iff] at hkeep
  obtain ⟨t, ht, hnt⟩ := hkeep
  exact ⟨t, ht, by simpa [mergeOR] using hnt⟩

/-! ## LWW file sync (`lww.py`)

State: `file_timestamps : rel_path → ISO timestamp` plus the bytes of the
files on disk below the sync path (`files`).  The merge consumes a remote
dict `{rel_path: (timestamp, content-or-null)}`; a base64 string that fails
to decode is modelled as `RPayload.invalid` (the code logs and skips the
entry without touching the timestamp). -/

/-- Remote per-key payload: `None`, an undecodable string, or content bytes. -/
inductive RPayload where
  | null : RPayload
  | invalid : RPayload
  | data : List Nat → RPayload
deriving Repr, DecidableEq

structure LWWState where
  ftMap : List (String × String)
  files : List (String × List Nat)
deriving Repr, DecidableEq

/-- `rel_path.startswith('.')` (whole relative path, as in `merge`). -/
def startsDot (k : String) : Bool :=
  match k.data with
  | [] => false
  | c :: _ => decide (c = '.')

/-- `rel_path.endswith('.swp')`. -/
def endsSwp (k : String) : Bool :=
  decide (k.data.reverse.take 4 = ['p', 'w', 's', '.'])

/-- The merge's skip test for reserved / editor names. -/
def lwwSkip (k : String) : Bool := startsDot k || endsSwp k

/-- One iteration of `LWWFileSync.merge`'s loop over the remote items. -/
def lwwStep (acc : LWWState × Bool) (entry : String × (String × RPayload)) :
    LWWState × Bool :=
  let rel := entry.1
  let rts := entry.2.1
  let pay := entry.2.2
  if lwwSkip rel then acc
  else
    let adopt : Bool :=
      match alookup acc.1.ftMap rel with
      | none => true
      | some lts => tsLt lts rts
    if adopt then
      match pay with
      | RPayload.data b => (⟨aset acc.1.ftMap rel rts, aset acc.1.files rel b⟩, true)
      | RPayload.invalid => acc
      | RPayload.null => (⟨aset acc.1.ftMap rel rts, adelete acc.1.files rel⟩, true)
    else acc

/-- `LWWFileSync.merge`. -/
def mergeLWW (st : LWWState) (remote : List (String × (String × RPayload))) :
    LWWState × Bool :=
  remote.foldl lwwStep (st, false)

theorem lwwStep_ne (acc : LWWState × Bool) (entry : String × (String × RPayload))
    (k : String) (h : entry.1 ≠ k) :
    alookup (lwwStep acc entry).1.ftMap k = alookup acc.1.ftMap k ∧
    alookup (lwwStep acc entry).1.files k = alookup acc.1.files k := by
  obtain ⟨rel, rts, pay⟩ := entry
  simp only [lwwStep]
  by_cases hs : lwwSkip rel
  · simp [hs]
  · simp only [hs, Bool.false_eq_true, if_neg, not_false_iff]
    rcases alookup acc.1.ftMap rel with _ | lts
    · cases pay <;>
        simp [alookup_aset_ne _ rel k _ (Ne.symm h), alookup_adelete_ne _ rel k (Ne.symm h)]
    · by_cases hlt : tsLt lts rts = true
      · cases pay <;>
          simp [hlt, alookup_aset_ne _ rel k _ (Ne.symm h),
            alookup_adelete_ne _ rel k (Ne.symm h)]
      · simp [hlt]

theorem lwwStep_transfer (acc acc' : LWWState × Bool) (k rts : String)
    (pay : RPayload)
    (hft : alookup acc.1.ftMap k = alookup acc'.1.ftMap k)
    (hfl : alookup acc.1.files k = alookup acc'.1.files k) :
    alookup (lwwStep acc (k, (rts, pay))).1.ftMap k =
      alookup (lwwStep acc' (k, (rts, pay))).1.ftMap k ∧
    alookup (lwwStep acc (k, (rts, pay))).1.files k =
      alookup (lwwStep acc' (k, (rts, pay))).1.files k := by
  simp only [lwwStep]
  by_cases hs : lwwSkip k
  · simp [hs, hft, hfl]
  · simp only [hs, Bool.false_eq_true, if_neg, not_false_iff, hft]
    rcases alookup acc'.1.ftMap k with _ | lts
    · cases pay <;>
        simp [alookup_aset_self, alookup_adelete_self, hft, hfl]
    · by_cases hlt : tsLt lts rts = true
      · cases pay <;>
          simp [hlt, alookup_aset_self, alookup_adelete_self, hft, hfl]
      · simp [hlt, hft, hfl]

theorem mergeLWW_fold_not_mem (remote : List (String × (String × RPayload)))
    (acc : LWWState × Bool) (k : String) (h : k ∉ akeys remote) :
    alookup (remote.foldl lwwStep acc).1.ftMap k = alookup acc.1.ftMap k ∧
    alookup (remote.foldl lwwStep acc).1.files k = alookup acc.1.files k := by
  induction remote generalizing acc with
  | nil => exact ⟨rfl, rfl⟩
  | cons e rest ih =>
      simp only [akeys, List.map_cons, List.mem_cons] at h
      push_neg at h
      have hstep := lwwStep_ne acc e k (fun hh => h.1 hh.symm)
      have hrest := ih (lwwStep acc e) (by simpa [akeys] using h.2)
      rw [List.foldl_cons]
      exact ⟨hrest.1.trans hstep.1, hrest.2.trans hstep.2⟩

theorem mergeLWW_fold_mem (remote : List (String × (String × RPayload)))
    (hn : (akeys remote).Nodup) (acc : LWWState × Bool) (k rts : String)
    (pay : RPayload) (hmem : (k, (rts, pay)) ∈ remote) :
    alookup (remote.foldl lwwStep acc).1.ftMap k =
      alookup (lwwStep acc (k, (rts, pay))).1.ftMap k ∧
    alookup (remote.foldl lwwStep acc).1.files k =
      alookup (lwwStep acc (k, (rts, pay))).1.files k := by
  induction remote generalizing acc with
  | nil => simp at hmem
  | cons e rest ih =>
      simp only [akeys, List.map_cons, List.nodup_cons] at hn
      rcases List.mem_cons.mp hmem with he | he
      · subst he
        rw [List.foldl_cons]
        exact mergeLWW_fold_not_mem rest (lwwStep acc (k, (rts, pay))) k
          (by simpa [akeys] using hn.1)
      · have hkne : e.1 ≠ k := by
          intro hh
          apply hn.1
          rw [hh]
          exact List.mem_map.mpr ⟨(k, (rts, pay)), he, rfl⟩
        have hstep := lwwStep_ne acc e k hkne
        have := ih hn.2 (lwwStep acc e) he
        rw [List.foldl_cons]
        refine ⟨this.1.trans ?_, this.2.trans ?_⟩
        · exact (lwwStep_transfer (lwwStep acc e) acc k rts pay hstep.1 hstep.2).1
        · exact (lwwStep_transfer (lwwStep acc e) acc k rts pay hstep.1 hstep.2).2

/-- Entries whose key is skipped never change the maps at that key. -/
theorem mergeLWW_skip_key (remote : List (String × (String × RPayload)))
    (st : LWWState) (k : String) (hs : lwwSkip k = true) :
    alookup (mergeLWW st remote).1.ftMap k = alookup st.ftMap k := by
  suffices h : ∀ acc : LWWState × Bool,
      alookup (remote.foldl lwwStep acc).1.ftMap k = alookup acc.1.ftMap k from
    h (st, false)
  intro acc
  induction remote generalizing acc with
  | nil => rfl
  | cons e rest ih =>
      rw [List.foldl_cons]
      refine (ih (lwwStep acc e)).trans ?_
      by_cases hk : e.1 = k
      · obtain ⟨rel, rts, pay⟩ := e
        simp only at hk
        subst hk
        simp [lwwStep, hs]
      · exact (lwwStep_ne acc e k hk).1

/-- `LWWFileSync.to_dict`: every tracked path is emitted with its stored
timestamp; the payload is the base64 of the on-disk bytes when the file
exists and `None` otherwise (also the final fallback of the read retries). -/
def toDictLWW (st : LWWState) : List (String × (String × RPayload)) :=
  st.ftMap.map (fun p =>
    (p.1, (p.2,
      match alookup st.files p.1 with
      | some b => RPayload.data b
      | none => RPayload.null)))

theorem alookup_map {τ σ : Type} (m : List (String × τ)) (g : String → τ → σ)
    (k : String) :
    alookup (m.map (fun p => (p.1, g p.1 p.2))) k = (alookup m k).map (g k) := by
  induction m with
  | nil => rfl
  | cons p rest ih =>
      obtain ⟨k₀, v₀⟩ := p
      by_cases h0 : k₀ = k
      · subst h0
        simp [alookup]
      · simp [alookup, h0, ih]

theorem toDictLWW_lookup (st : LWWState) (k : String) :
    alookup (toDictLWW st) k = (alookup st.ftMap k).map (fun ts =>
      (ts, match alookup st.files k with
           | some b => RPayload.data b
           | none => RPayload.null)) := by
  simpa [toDictLWW] using
    alookup_map st.ftMap (fun rel ts =>
      (ts, match alookup st.files rel with
           | some b => RPayload.data b
           | none => RPayload.null)) k

theorem akeys_toDictLWW (st : LWWState) : akeys (toDictLWW st) = akeys st.ftMap := by
  simp [toDictLWW, akeys, List.map_map, Function.comp]

/-- Timestamp recorded for `k` after a merge containing the entry
`(k, (rts, pay))` with a processable payload: remote adopted exactly when
the local stamp is missing or strictly older. -/
theorem mergeLWW_lookup_single (st : LWWState)
    (remote : List (String × (String × RPayload)))
    (hn : (akeys remote).Nodup) (k rts : String) (pay : RPayload)
    (hmem : (k, (rts, pay)) ∈ remote) (hs : lwwSkip k = false)
    (hpay : pay ≠ RPayload.invalid) :
    alookup (mergeLWW st remote).1.ftMap k =
      match alookup st.ftMap k with
      | none => some rts
      | some lts => if tsLt lts rts then some rts else some lts := by
  have hfold := mergeLWW_fold_mem remote hn (st, false) k rts pay hmem
  show alookup (remote.foldl lwwStep (st, false)).1.ftMap k = _
  rw [hfold.1]
  simp only [lwwStep, hs, Bool.false_eq_true, if_neg, not_false_iff]
  rcases hl : alookup st.ftMap k with _ | lts
  · cases pay with
    | null => simp [hl, alookup_aset_self]
    | invalid => exact absurd rfl hpay
    | data b => simp [hl, alookup_aset_self]
  · by_cases hlt : tsLt lts rts = true
    · cases pay with
      | null => simp [hl, hlt, alookup_aset_self]
      | invalid => exact absurd rfl hpay
      | data b => simp [hl, hlt, alookup_aset_self]
    · have hlt' : tsLt lts rts = false := by rwa [Bool.not_eq_true] at hlt
      simp [hl, hlt']

/-- Commutativity of the LWW join on the timestamp map, for states whose
tracked paths are not reserved/hidden names. -/
theorem mergeLWW_comm (x y : LWWState)
    (hx : (akeys x.ftMap).Nodup) (hy : (akeys y.ftMap).Nodup)
    (hcx : ∀ k ∈ akeys x.ftMap, lwwSkip k = false)
    (hcy : ∀ k ∈ akeys y.ftMap, lwwSkip k = false) (k : String) :
    alookup (mergeLWW x (toDictLWW y)).1.ftMap k =
      alookup (mergeLWW y (toDictLWW x)).1.ftMap k := by
  by_cases hs : lwwSkip k = true
  · rw [mergeLWW_skip_key _ _ _ hs, mergeLWW_skip_key _ _ _ hs]
    have h1 : alookup x.ftMap k = none :=
      alookup_eq_none_of_not_mem _ _ (fun hm => by simp [hcx k hm] at hs)
    have h2 : alookup y.ftMap k = none :=
      alookup_eq_none_of_not_mem _ _ (fun hm => by simp [hcy k hm] at hs)
    rw [h1, h2]
  · rw [Bool.not_eq_true] at hs
    have hny : (akeys (toDictLWW y)).Nodup := by rw [akeys_toDictLWW]; exact hy
    have hnx : (akeys (toDictLWW x)).Nodup := by rw [akeys_toDictLWW]; exact hx
    rcases hxk : alookup x.ftMap k with _ | xts <;>
      rcases hyk : alookup y.ftMap k with _ | yts
    · have l1 := (mergeLWW_fold_not_mem (toDictLWW y) (x, false) k
        (by rw [akeys_toDictLWW, ← alookup_eq_none_iff]; exact hyk)).1
      have l2 := (mergeLWW_fold_not_mem (toDictLWW x) (y, false) k
        (by rw [akeys_toDictLWW, ← alookup_eq_none_iff]; exact hxk)).1
      show alookup ((toDictLWW y).foldl lwwStep (x, false)).1.ftMap k =
        alookup ((toDictLWW x).foldl lwwStep (y, false)).1.ftMap k
      rw [l1, l2]
      exact hxk.trans hyk.symm
    · have hmem : (k, (yts,
          match alookup y.files k with
          | some b => RPayload.data b
          | none => RPayload.null)) ∈ toDictLWW y := by
        apply alookup_mem
        rw [toDictLWW_lookup, hyk, Option.map_some']
      have hpay : (match alookup y.files k with
          | some b => RPayload.data b
          | none => RPayload.null) ≠ RPayload.invalid := by
        rcases alookup y.files k with _ | b <;> simp
      have l1 := mergeLWW_lookup_single x (toDictLWW y) hny k yts _ hmem hs hpay
      rw [hxk] at l1
      have l2 := (mergeLWW_fold_not_mem (toDictLWW x) (y, false) k
        (by rw [akeys_toDictLWW, ← alookup_eq_none_iff]; exact hxk)).1
      rw [l1]
      show _ = alookup ((toDictLWW x).foldl lwwStep (y, false)).1.ftMap k
      rw [l2]
      exact hyk.symm
    · have hmem : (k, (xts,
          match alookup x.files k with
          | some b => RPayload.data b
          | none => RPayload.null)) ∈ toDictLWW x := by
        apply alookup_mem
        rw [toDictLWW_lookup, hxk, Option.map_some']
      have hpay : (match alookup x.files k with
          | some b => RPayload.data b
          | none => RPayload.null) ≠ RPayload.invalid := by
        rcases alookup x.files k with _ | b <;> simp
      have l2 := mergeLWW_lookup_single y (toDictLWW x) hnx k xts _ hmem hs hpay
      rw [hyk] at l2
      have l1 := (mergeLWW_fold_not_mem (toDictLWW y) (x, false) k
        (by rw [akeys_toDictLWW, ← alookup_eq_none_iff]; exact hyk)).1
      rw [l2]
      show alookup ((toDictLWW y).foldl lwwStep (x, false)).1.ftMap k = _
      rw [l1]
      exact hxk
    · have hmemy : (k, (yts,
          match alookup y.files k with
          | some b => RPayload.data b
          | none => RPayload.null)) ∈ toDictLWW y := by
        apply alookup_mem
        rw [toDictLWW_lookup, hyk, Option.map_some']
      have hpayy : (match alookup y.files k with
          | some b => RPayload.data b
          | none => RPayload.null) ≠ RPayload.invalid := by
        rcases alookup y.files k with _ | b <;> simp
      have hmemx : (k, (xts,
          match alookup x.files k with
          | some b => RPayload.data b
          | none => RPayload.null)) ∈ toDictLWW x := by
        apply alookup_mem
        rw [toDictLWW_lookup, hxk, Option.map_some']
      have hpayx : (match alookup x.files k with
          | some b => RPayload.data b
          | none => RPayload.null) ≠ RPayload.invalid := by
        rcases alookup x.files k with _ | b <;> simp
      have l1 := mergeLWW_lookup_single x (toDictLWW y) hny k yts _ hmemy hs hpayy
      have l2 := mergeLWW_lookup_single y (toDictLWW x) hnx k xts _ hmemx hs hpayx
      rw [hxk] at l1
      rw [hyk] at l2
      rw [l1, l2]
      show (if tsLt xts yts = true then some yts else some xts) =
        (if tsLt yts xts = true then some xts else some yts)
      by_cases h1 : tsLt xts yts = true
      · rw [if_pos h1, if_neg (by simp [tsLt_asymm xts yts h1])]
      · by_cases h2 : tsLt yts xts = true
        · rw [if_neg h1, if_pos h2]
        · rw [if_neg h1, if_neg h2]
          rw [tsLt_conn xts yts (by simpa using h1) (by simpa using h2)]

/-! ### Scan (`update_local_state`)

Inputs: the in-memory timestamp map `m` (possibly loaded from
`.lww_state.json`), the scanned `current` files with their mtime stamps,
the on-disk existence test `onDisk` (the loop's `file_path.exists()`), and
the current time `now`. -/

/-- One iteration of the current-files loop: adopt a scanned mtime when the
entry is missing or strictly older. -/
def scanStep1 (acc : List (String × String)) (p : String × String) :
    List (String × String) :=
  match alookup acc p.1 with
  | none => aset acc p.1 p.2
  | some ex => if tsLt ex p.2 then aset acc p.1 p.2 else acc

/-- One iteration of the tombstone loop: a tracked path that no longer
exists on disk gets stamped `now` when its stored stamp is older. -/
def tombStep (onDisk : String → Bool) (now : String)
    (acc : List (String × String)) (rel : String) : List (String × String) :=
  if onDisk rel then acc
  else
    match alookup acc rel with
    | none => aset acc rel now
    | some ex => if tsLt ex now then aset acc rel now else acc

/-- `LWWFileSync.update_local_state` on the timestamp map: initialise from
the scan when empty, otherwise refresh stamps for current files and then
tombstone tracked-but-missing paths. -/
def scanUpdate (m current : List (String × String)) (onDisk : String → Bool)
    (now : String) : List (String × String) :=
  if m.isEmpty then current
  else
    let m1 := current.foldl scanStep1 m
    (akeys m1).foldl (tombStep onDisk now) m1

theorem scanStep1_ne (acc : List (String × String)) (p : String × String)
    (rel : String) (h : p.1 ≠ rel) :
    alookup (scanStep1 acc p) rel = alookup acc rel := by
  simp only [scanStep1]
  rcases alookup acc p.1 with _ | ex
  · exact alookup_aset_ne _ _ _ _ (Ne.symm h)
  · by_cases hlt : tsLt ex p.2 = true
    · simp [hlt, alookup_aset_ne _ _ _ _ (Ne.symm h)]
    · simp [hlt]

theorem scanFold1_not_mem (current : List (String × String))
    (m : List (String × String)) (rel : String) (h : rel ∉ akeys current) :
    alookup (current.foldl scanStep1 m) rel = alookup m rel := by
  induction current generalizing m with
  | nil => rfl
  | cons p rest ih =>
      simp only [akeys, List.map_cons, List.mem_cons] at h
      push_neg at h
      rw [List.foldl_cons, ih (scanStep1 m p) (by simpa [akeys] using h.2)]
      exact scanStep1_ne m p rel (fun hh => h.1 hh.symm)

theorem scanStep1_nodup (acc : List (String × String)) (p : String × String)
    (h : (akeys acc).Nodup) : (akeys (scanStep1 acc p)).Nodup := by
  simp only [scanStep1]
  rcases alookup acc p.1 with _ | ex
  · exact akeys_aset_nodup acc p.1 p.2 h
  · by_cases hlt : tsLt ex p.2 = true
    · simp only [hlt, if_pos]
      exact akeys_aset_nodup acc p.1 p.2 h
    · simpa [hlt] using h

theorem scanFold1_nodup (current : List (String × String))
    (m : List (String × String)) (h : (akeys m).Nodup) :
    (akeys (current.foldl scanStep1 m)).Nodup := by
  induction current generalizing m with
  | nil => exact h
  | cons p rest ih => exact ih (scanStep1 m p) (scanStep1_nodup m p h)

theorem tombStep_ne (onDisk : String → Bool) (now : String)
    (acc : List (String × String)) (r rel : String) (h : r ≠ rel) :
    alookup (tombStep onDisk now acc r) rel = alookup acc rel := by
  simp only [tombStep]
  by_cases hd : onDisk r
  · simp [hd]
  · simp only [hd, Bool.false_eq_true, if_neg, not_false_iff]
    rcases alookup acc r with _ | ex
    · exact alookup_aset_ne _ _ _ _ (Ne.symm h)
    · by_cases hlt : tsLt ex now = true
      · simp [hlt, alookup_aset_ne _ _ _ _ (Ne.symm h)]
      · simp [hlt]

theorem tombFold_not_mem (onDisk : String → Bool) (now : String)
    (keys : List String) (acc : List (String × String)) (rel : String)
    (h : rel ∉ keys) :
    alookup (keys.foldl (tombStep onDisk now) acc) rel = alookup acc rel := by
  induction keys generalizing acc with
  | nil => rfl
  | cons r rest ih =>
      simp only [List.mem_cons] at h
      push_neg at h
      rw [List.foldl_cons, ih (tombStep onDisk now acc r) h.2]
      exact tombStep_ne onDisk now acc r rel (fun hh => h.1 hh.symm)

theorem tombStep_transfer (onDisk : String → Bool) (now : String)
    (acc acc' : List (String × String)) (rel : String)
    (h : alookup acc rel = alookup acc' rel) :
    alookup (tombStep onDisk now acc rel) rel =
      alookup (tombStep onDisk now acc' rel) rel := by
  simp only [tombStep, h]
  by_cases hd : onDisk rel
  · simp [hd, h]
  · simp only [hd, Bool.false_eq_true, if_neg, not_false_iff]
    rcases alookup acc' rel with _ | ex
    · simp [alookup_aset_self]
    · by_cases hlt : tsLt ex now = true
      · simp [hlt, alookup_aset_self]
      · simp [hlt, h]

theorem tombFold_mem (onDisk : String → Bool) (now : String)
    (keys : List String) (hn : keys.Nodup) (rel : String) (hmem : rel ∈ keys)
    (acc : List (String × String)) :
    alookup (keys.foldl (tombStep onDisk now) acc) rel =
      alookup (tombStep onDisk now acc rel) rel := by
  induction keys generalizing acc with
  | nil => simp at hmem
  | cons r rest ih =>
      rw [List.nodup_cons] at hn
      rcases List.mem_cons.mp hmem with he | he
      · subst he
        rw [List.foldl_cons]
        exact tombFold_not_mem onDisk now rest (tombStep onDisk now acc rel) rel hn.1
      · have hne : r ≠ rel := fun hh => hn.1 (hh ▸ he)
        rw [List.foldl_cons, ih hn.2 he (tombStep onDisk now acc r)]
        exact tombStep_transfer onDisk now _ acc rel (tombStep_ne onDisk now acc r rel hne)

/-! ### Paths and snapshot traces (`get_sync_path`, `save_state_file`,
`BaseCRDTNode._save_state`)

Paths are modelled as component lists; `Path.name` is the last component. -/

/-- `LWWFileSync.get_sync_path`: the `lww` subdirectory of the configured
folder, unless the folder itself is already named `lww`. -/
def getSyncPath (syncFolder : List String) : List String :=
  if syncFolder.getLast? = some "lww" then syncFolder else syncFolder ++ ["lww"]

/-- Location of the reserved `.lww_state.json` persistence file. -/
def lwwStateFilePath (syncFolder : List String) : List String :=
  getSyncPath syncFolder ++ [".lww_state.json"]

/-- A path picked up by the scan's `glob('**/*')`: strictly below the scan
path. -/
def scannedBy (syncFolder p : List String) : Prop :=
  ∃ c, c ≠ [] ∧ p = getSyncPath syncFolder ++ c

/-- Filesystem operations a snapshot writer performs, in order. -/
inductive FsOp where
  | writeFile : List String → FsOp
  | writeTemp : List String → FsOp
  | rename : List String → List String → FsOp
deriving Repr, DecidableEq

/-- `BaseCRDTNode._save_state`: `open(self.state_file, 'w')` followed by
`json.dump` — a direct in-place write of the target. -/
def saveStateTrace (stateFile : List String) : List FsOp :=
  [FsOp.writeFile stateFile]

/-- `LWWFileSync.save_state_file`: `tempfile.mkstemp(dir=sf.parent)` (the
fresh name `tmpName`), write the JSON there, then `os.replace` it over
`.lww_state.json`. -/
def saveLwwStateTrace (syncFolder : List String) (tmpName : String) : List FsOp :=
  [FsOp.writeTemp (getSyncPath syncFolder ++ [tmpName]),
   FsOp.rename (getSyncPath syncFolder ++ [tmpName]) (lwwStateFilePath syncFolder)]

/-- Atomic-replace shape: all content is staged in a distinct temporary file
which is renamed over the target in one step; the target is never opened
for direct writing. -/
def atomicReplace (target : List String) (tr : List FsOp) : Prop :=
  ∃ tmp, tmp ≠ target ∧ tr = [FsOp.writeTemp tmp, FsOp.rename tmp target]

/-- `TwoPhaseSet.merge` of the empty payload is a no-op reporting no change. -/
theorem tpMerge_empty (st : TPState) : tpMerge st [] [] = (st, false) := rfl

/-- `ORSet.merge` of the empty payload is a no-op reporting no change, for
states in which every element has a live (non-tombstoned) tag. -/
theorem mergeOR_empty (st : ORState)
    (hinv : ∀ p ∈ st.elements, ∃ t ∈ p.2, t ∉ st.removed) :
    mergeOR st [] [] = (st, false) := by
  obtain ⟨els, rem⟩ := st
  simp only [mergeOR, mergeORAux, sdiff, List.filter_nil, List.append_nil]
  have hfilter : els.filter (orKeep rem) = els := by
    apply List.filter_eq_self.mpr
    intro p hp
    exact (orKeep_iff rem p).mpr (by simpa using hinv p hp)
  have hnone : els.filter (fun p => !(orKeep rem p)) = [] := by
    rw [List.filter_eq_nil_iff]
    intro p hp
    simp only [Bool.not_eq_true']
    rw [Bool.not_eq_false]
    exact (orKeep_iff rem p).mpr (by simpa using hinv p hp)
  rw [hfilter, hnone]
  simp

/-! ## Concrete scenarios from the specification -/

/-- S3, replica `a` after `add "x"`, `add "y"`. -/
def s3A : TPState := (tpAdd (tpAdd tpEmpty "x").1 "y").1

/-- S3, replica `b` after merging from `a` and removing `"y"`. -/
def s3B : TPState := (tpRemove (tpMerge tpEmpty s3A.added s3A.removed).1 "y").1

/-- S3, replica `a` after merging from `b` and adding `"y"` again. -/
def s3A2 : TPState := (tpAdd (tpMerge s3A s3B.added s3B.removed).1 "y").1

/-- S3, replica `b` after the further gossip round from `a`. -/
def s3Bf : TPState := (tpMerge s3B s3A2.added s3A2.removed).1

/-- S3, replica `a` after the further gossip round from `b`. -/
def s3Af : TPState := (tpMerge s3A2 s3Bf.added s3Bf.removed).1

/-- S4, the shared start state `{"f"}` with tag `t1`. -/
def s4Start : ORState := (orAdd ⟨[], []⟩ "f" "t1").1

/-- S4, replica `a` after `remove "f"` (tombstones `t1`). -/
def s4ARem : ORState := (orRemove s4Start "f").1

/-- S4, replica `b` after the concurrent `add "f"` (fresh tag `t2`). -/
def s4BAdd : ORState := (orAdd s4Start "f" "t2").1

/-- S4, replica `a` after merging `b`'s state. -/
def s4AFin : ORState := (mergeOR s4ARem s4BAdd.elements s4BAdd.removed).1

/-- S4, replica `b` after merging `a`'s state. -/
def s4BFin : ORState := (mergeOR s4BAdd s4ARem.elements s4ARem.removed).1

/-! ## Claim theorems -/

/-- C1 counterexample: the TwoPhaseSet join is not commutative on reachable
states.  `x` (reachable by `add "a"; remove "a"`) joined with the fresh
state `y` keeps `"a"` removed, while `y` joined with `x` drops the removal
(merge filters remote removals by the updated local added set), so the two
joins disagree, even on the query. -/
theorem claim_C1_counterexample :
    ("a" ∈ (tpMerge (tpRemove (tpAdd tpEmpty "a").1 "a").1
        tpEmpty.added tpEmpty.removed).1.removed) ∧
    ("a" ∉ (tpMerge tpEmpty (tpRemove (tpAdd tpEmpty "a").1 "a").1.added
        (tpRemove (tpAdd tpEmpty "a").1 "a").1.removed).1.removed) ∧
    ("a" ∉ tpQuery (tpMerge (tpRemove (tpAdd tpEmpty "a").1 "a").1
        tpEmpty.added tpEmpty.removed).1) ∧
    ("a" ∈ tpQuery (tpMerge tpEmpty (tpRemove (tpAdd tpEmpty "a").1 "a").1.added
        (tpRemove (tpAdd tpEmpty "a").1 "a").1.removed).1) := by
  decide

/-- C1 (amended): the join is commutative on the canonical replicated state
for G-Counter, PN-Counter, G-Set and OR-Set, and for the LWW timestamp map
on states tracking only non-reserved paths; TwoPhaseSet's merge is not
commutative (see the counterexample). -/
theorem claim_C1 :
    (∀ x y : List (String × Nat), (akeys x).Nodup → (akeys y).Nodup →
      ∀ k, lookup0 (mergeG x y).1 k = lookup0 (mergeG y x).1 k) ∧
    (∀ x y : PNState,
      (akeys x.p).Nodup → (akeys x.n).Nodup →
      (akeys y.p).Nodup → (akeys y.n).Nodup →
      ∀ k, lookup0 (mergePN x y.p y.n).1.p k = lookup0 (mergePN y x.p x.n).1.p k ∧
           lookup0 (mergePN x y.p y.n).1.n k = lookup0 (mergePN y x.p x.n).1.n k) ∧
    (∀ (x y : List String) (e : String),
      e ∈ (mergeGSet x y).1 ↔ e ∈ (mergeGSet y x).1) ∧
    (∀ x y : ORState, (akeys x.elements).Nodup → (akeys y.elements).Nodup →
      (∀ e t, t ∈ tags0 (mergeOR x y.elements y.removed).1.elements e ↔
              t ∈ tags0 (mergeOR y x.elements x.removed).1.elements e) ∧
      (∀ s, s ∈ (mergeOR x y.elements y.removed).1.removed ↔
            s ∈ (mergeOR y x.elements x.removed).1.removed) ∧
      (∀ e, e ∈ orQuery (mergeOR x y.elements y.removed).1 ↔
            e ∈ orQuery (mergeOR y x.elements x.removed).1)) ∧
    (∀ x y : LWWState, (akeys x.ftMap).Nodup → (akeys y.ftMap).Nodup →
      (∀ k ∈ akeys x.ftMap, lwwSkip k = false) →
      (∀ k ∈ akeys y.ftMap, lwwSkip k = false) →
      ∀ k, alookup (mergeLWW x (toDictLWW y)).1.ftMap k =
           alookup (mergeLWW y (toDictLWW x)).1.ftMap k) :=
  ⟨mergeG_comm,
   fun x y a b c d k => mergePN_comm x y a b c d k,
   mergeGSet_comm,
   fun x y hx hy => mergeOR_comm x y hx hy,
   fun x y hx hy cx cy k => mergeLWW_comm x y hx hy cx cy k⟩

/-- C1 witness: the G-Counter commutativity clause evaluated at concrete
states. -/
theorem claim_C1_witness :
    lookup0 (mergeG [("a", 2)] [("a", 5), ("b", 1)]).1 "a" =
      lookup0 (mergeG [("a", 5), ("b", 1)] [("a", 2)]).1 "a" :=
  claim_C1.1 [("a", 2)] [("a", 5), ("b", 1)] (by decide) (by decide) "a"

/-- C2 counterexample: in scenario S3 the final query on replica `a` still
contains `"y"`, contradicting the claimed `{"x"}` on both replicas. -/
theorem claim_C2_counterexample : "y" ∈ tpQuery s3Af := by decide

/-- C2 (amended): after the S3 sequence, replica `b` queries `{"x"}` but
replica `a` queries `{"x","y"}` — `TwoPhaseSet.merge` drops any remote
removal of an element present in the (updated) local added set, so the
removal of `"y"` never reaches `a`. -/
theorem claim_C2 :
    tpQuery s3Bf = ["x"] ∧ tpQuery s3Af = ["x", "y"] ∧
    "y" ∈ (tpMerge s3A2 s3Bf.added s3Bf.removed).1.added ∧
    "y" ∉ (tpMerge s3A2 s3Bf.added s3Bf.removed).1.removed := by
  decide

/-- C3 counterexample: a dot-prefixed remote key with a strictly newer
timestamp is skipped entirely — the entry is not adopted even though the
local timestamp is missing. -/
theorem claim_C3_counterexample :
    alookup (⟨[], []⟩ : LWWState).ftMap ".h" = none ∧
    alookup (mergeLWW ⟨[], []⟩ [(".h", ("2", RPayload.data [1]))]).1.ftMap ".h"
      ≠ some "2" := by
  decide

/-- C3 (amended): per-key LWW merge rule for keys that are neither
dot-prefixed nor `.swp`-suffixed and whose payload is well-formed: when the
local stamp is missing or strictly older, the remote entry is adopted (data
written, or tombstone applied by deleting the file) and the key's stamp
becomes the remote stamp; otherwise the key and its file are untouched. -/
theorem claim_C3 (st : LWWState) (remote : List (String × (String × RPayload)))
    (hn : (akeys remote).Nodup) (k rts : String) (pay : RPayload)
    (hmem : (k, (rts, pay)) ∈ remote) (hs : lwwSkip k = false)
    (hpay : pay ≠ RPayload.invalid) :
    ((∀ lts, alookup st.ftMap k = some lts → tsLt lts rts = true) →
      alookup (mergeLWW st remote).1.ftMap k = some rts ∧
      (∀ b, pay = RPayload.data b →
        alookup (mergeLWW st remote).1.files k = some b) ∧
      (pay = RPayload.null → alookup (mergeLWW st remote).1.files k = none)) ∧
    (∀ lts, alookup st.ftMap k = some lts → tsLt lts rts = false →
      alookup (mergeLWW st remote).1.ftMap k = some lts ∧
      alookup (mergeLWW st remote).1.files k = alookup st.files k) := by
  have hfold := mergeLWW_fold_mem remote hn (st, false) k rts pay hmem
  have hft : alookup (mergeLWW st remote).1.ftMap k =
      alookup (lwwStep (st, false) (k, (rts, pay))).1.ftMap k := hfold.1
  have hfl : alookup (mergeLWW st remote).1.files k =
      alookup (lwwStep (st, false) (k, (rts, pay))).1.files k := hfold.2
  constructor
  · intro hold
    have hadopt : (match alookup st.ftMap k with
        | none => true
        | some lts => tsLt lts rts) = true := by
      rcases hl : alookup st.ftMap k with _ | lts
      · rfl
      · exact hold lts hl
    cases pay with
    | invalid => exact absurd rfl hpay
    | null =>
        refine ⟨?_, ?_, ?_⟩
        · rw [hft]
          simp [lwwStep, hs, hadopt, alookup_aset_self]
        · intro b hb
          cases hb
        · intro _
          rw [hfl]
          simp [lwwStep, hs, hadopt, alookup_adelete_self]
    | data b' =>
        refine ⟨?_, ?_, ?_⟩
        · rw [hft]
          simp [lwwStep, hs, hadopt, alookup_aset_self]
        · intro b hb
          have hb' : b' = b := by injection hb
          subst hb'
          rw [hfl]
          simp [lwwStep, hs, hadopt, alookup_aset_self]
        · intro hnull
          cases hnull
  · intro lts hl hflt
    constructor
    · rw [hft]
      simp [lwwStep, hs, hl, hflt]
    · rw [hfl]
      simp [lwwStep, hs, hl, hflt]

/-- C3 witness: a fresh remote entry with a newer stamp is adopted: the
timestamp map takes `"2"` and the decoded bytes are written. -/
theorem claim_C3_witness :
    alookup (mergeLWW ⟨[("doc", "1")], [("doc", [0])]⟩
      [("doc", ("2", RPayload.data [7]))]).1.ftMap "doc" = some "2" ∧
    alookup (mergeLWW ⟨[("doc", "1")], [("doc", [0])]⟩
      [("doc", ("2", RPayload.data [7]))]).1.files "doc" = some [7] := by
  have hold : ∀ lts,
      alookup (⟨[("doc", "1")], [("doc", [0])]⟩ : LWWState).ftMap "doc" =
        some lts → tsLt lts "2" = true := by
    intro lts hl
    have hl' : some "1" = some lts := hl
    injection hl' with h2
    rw [← h2]
    decide
  have h := (claim_C3 ⟨[("doc", "1")], [("doc", [0])]⟩
      [("doc", ("2", RPayload.data [7]))] (by decide) "doc" "2"
      (RPayload.data [7]) (by decide) (by decide) (by decide)).1 hold
  exact ⟨h.1, h.2.1 [7] rfl⟩

/-- C4 counterexample: the node snapshot writer (`BaseCRDTNode._save_state`)
opens the target file directly and writes into it — its trace has no
temporary file and no rename, so it is not an atomic replace. -/
theorem claim_C4_counterexample :
    ¬ atomicReplace ["state.json"] (saveStateTrace ["state.json"]) := by
  rintro ⟨tmp, -, h⟩
  simp [saveStateTrace] at h

/-- C4 (amended): only the LWW `.lww_state.json` write is atomic (temp file
via `mkstemp` in the sync path, then `os.replace` over the target); the
node's configured `state_file` snapshot is a direct in-place write of the
target, for every path. -/
theorem claim_C4 (sf : List String) (tmpName : String)
    (h : tmpName ≠ ".lww_state.json") :
    atomicReplace (lwwStateFilePath sf) (saveLwwStateTrace sf tmpName) ∧
    (∀ p : List String, saveStateTrace p = [FsOp.writeFile p]) ∧
    (∀ p : List String, ¬ atomicReplace p (saveStateTrace p)) := by
  refine ⟨⟨getSyncPath sf ++ [tmpName], ?_, rfl⟩, fun p => rfl, ?_⟩
  · intro he
    apply h
    rw [lwwStateFilePath] at he
    have h2 := List.append_cancel_left he
    simpa using h2
  · rintro p ⟨tmp, -, hh⟩
    simp [saveStateTrace] at hh

/-- C4 witness: the `.lww_state.json` save trace for a concrete sync folder
and temp name is an atomic replace. -/
theorem claim_C4_witness :
    atomicReplace (lwwStateFilePath ["sync"]) (saveLwwStateTrace ["sync"] "tmp123") :=
  (claim_C4 ["sync"] "tmp123" (by decide)).1

/-- C5 counterexample: `GCounter.merge` on the empty decoded payload `{}`
raises `KeyError` (`other_state['counters']`), so merges can fail. -/
theorem claim_C5_counterexample :
    mergeGCounterPayload [("a", 1)] none = Except.error "KeyError: counters" := rfl

/-- C5 (amended): for G-Set, 2P-Set, OR-Set (on states whose elements keep a
live tag) and LWW, merging the empty payload never fails and is a no-op
reporting no change, as is the counter merge once the counter maps are
extracted; but G-Counter and PN-Counter merge raise `KeyError` on an empty
payload dict because they index `'counters'` / `'p_counters'` directly. -/
theorem claim_C5 (g2 : List String) (tp : TPState) (orS : ORState)
    (hinv : ∀ p ∈ orS.elements, ∃ t ∈ p.2, t ∉ orS.removed)
    (lw : LWWState) (gc : List (String × Nat)) (pn : PNState) :
    mergeGSet g2 [] = (g2, false) ∧
    tpMerge tp [] [] = (tp, false) ∧
    mergeOR orS [] [] = (orS, false) ∧
    mergeLWW lw [] = (lw, false) ∧
    mergeG gc [] = (gc, false) ∧
    mergePN pn [] [] = (pn, false) ∧
    mergeGCounterPayload gc none = Except.error "KeyError: counters" ∧
    mergePNCounterPayload pn (none, none) = Except.error "KeyError: p_counters" :=
  ⟨rfl, rfl, mergeOR_empty orS hinv, rfl, rfl, rfl, rfl, rfl⟩

/-- C5 witness: the OR-Set no-op clause at a concrete live state. -/
theorem claim_C5_witness :
    mergeOR ⟨[("f", ["t1"])], []⟩ [] [] = (⟨[("f", ["t1"])], []⟩, false) :=
  (claim_C5 [] tpEmpty ⟨[("f", ["t1"])], []⟩ (by decide) ⟨[], []⟩ [] ⟨[], []⟩).2.2.1

/-- C6 counterexample: after a successful remove, a subsequent add of the
same element returns `False` — it is rejected, not accepted. -/
theorem claim_C6_counterexample :
    (tpRemove (tpAdd tpEmpty "e").1 "e").2 = true ∧
    (tpAdd (tpRemove (tpAdd tpEmpty "e").1 "e").1 "e").2 = false := by
  decide

/-- C6 (amended): after `remove e` succeeds, a subsequent `add e` is
rejected (returns `False`) rather than accepted, but the observable outcome
matches the claim: `e` stays in the added set (from the original add),
stays in the removed set, the state is unchanged, and the query excludes
`e`. -/
theorem claim_C6 (st : TPState) (e : String) (h : (tpRemove st e).2 = true) :
    (tpAdd (tpRemove st e).1 e).2 = false ∧
    (tpAdd (tpRemove st e).1 e).1 = (tpRemove st e).1 ∧
    e ∈ (tpAdd (tpRemove st e).1 e).1.added ∧
    e ∈ (tpAdd (tpRemove st e).1 e).1.removed ∧
    e ∉ tpQuery (tpAdd (tpRemove st e).1 e).1 := by
  by_cases hc : e ∈ st.added ∧ e ∉ st.removed
  · have hrm : (tpRemove st e).1 = ⟨st.added, sadd st.removed e⟩ := by
      simp [tpRemove, hc]
    have hermem : e ∈ sadd st.removed e := (mem_sadd _ _ _).mpr (Or.inr rfl)
    have hadd : tpAdd (tpRemove st e).1 e = ((tpRemove st e).1, false) := by
      rw [hrm]
      simp [tpAdd, hermem]
    refine ⟨by rw [hadd], by rw [hadd], ?_, ?_, ?_⟩
    · rw [hadd, hrm]
      exact hc.1
    · rw [hadd, hrm]
      exact hermem
    · rw [hadd, hrm]
      intro hmem
      obtain ⟨-, hno⟩ := (mem_sdiff _ _ _).mp hmem
      exact hno hermem
  · exfalso
    simp [tpRemove, hc] at h

/-- C6 witness: the amended statement evaluated on `add "w"; remove "w";
add "w"`. -/
theorem claim_C6_witness :
    (tpAdd (tpRemove (tpAdd tpEmpty "w").1 "w").1 "w").2 = false ∧
    (tpAdd (tpRemove (tpAdd tpEmpty "w").1 "w").1 "w").1 =
      (tpRemove (tpAdd tpEmpty "w").1 "w").1 ∧
    "w" ∈ (tpAdd (tpRemove (tpAdd tpEmpty "w").1 "w").1 "w").1.added ∧
    "w" ∈ (tpAdd (tpRemove (tpAdd tpEmpty "w").1 "w").1 "w").1.removed ∧
    "w" ∉ tpQuery (tpAdd (tpRemove (tpAdd tpEmpty "w").1 "w").1 "w").1 :=
  claim_C6 (tpAdd tpEmpty "w").1 "w" (by decide)

/-- C7: scenario S4 — the remove at `a` tombstones only `t1`, the fresh tag
`t2` of the concurrent add survives, and after both replicas merge the
other's state the query on both is `{"f"}`. -/
theorem claim_C7 :
    s4ARem.removed = ["t1"] ∧
    "t2" ∉ s4ARem.removed ∧
    orQuery s4AFin = ["f"] ∧
    orQuery s4BFin = ["f"] := by
  decide

/-- C8: the scan tombstones every tracked path that is missing on disk and
whose stored stamp is older than `now` (entry becomes `now`), and the
resulting export for such a path is `(now, null)` — the tombstone shape
that `.lww_state.json` persistence preserves across restarts. -/
theorem claim_C8 (m current : List (String × String)) (onDisk : String → Bool)
    (now : String) (hm : m ≠ []) (hnm : (akeys m).Nodup)
    (hdisk : ∀ r ∈ akeys current, onDisk r = true)
    (rel ts : String) (hrel : alookup m rel = some ts)
    (hoff : onDisk rel = false) (hts : tsLt ts now = true) :
    alookup (scanUpdate m current onDisk now) rel = some now ∧
    (∀ files : List (String × List Nat), alookup files rel = none →
      alookup (toDictLWW ⟨scanUpdate m current onDisk now, files⟩) rel =
        some (now, RPayload.null)) := by
  have hcur : rel ∉ akeys current := fun hmem => by
    simp [hdisk rel hmem] at hoff
  have hie : m.isEmpty = false := by
    cases m with
    | nil => exact absurd rfl hm
    | cons a l => rfl
  have hmain : alookup (scanUpdate m current onDisk now) rel = some now := by
    simp only [scanUpdate, hie, Bool.false_eq_true, if_neg, not_false_iff]
    have h1 : alookup (current.foldl scanStep1 m) rel = some ts :=
      (scanFold1_not_mem current m rel hcur).trans hrel
    have hn1 := scanFold1_nodup current m hnm
    have hmem1 : rel ∈ akeys (current.foldl scanStep1 m) := by
      rw [mem_akeys_iff, h1]
      simp
    rw [tombFold_mem onDisk now _ hn1 rel hmem1]
    simp [tombStep, hoff, h1, hts, alookup_aset_self]
  refine ⟨hmain, ?_⟩
  intro files hfiles
  rw [toDictLWW_lookup]
  simp only
  rw [hmain, hfiles]
  rfl

/-- C8 witness: a tombstoned entry for a path missing from disk. -/
theorem claim_C8_witness :
    alookup (scanUpdate [("doc", "1")] [] (fun _ => false) "2") "doc" = some "2" :=
  (claim_C8 [("doc", "1")] [] (fun _ => false) "2" (by decide) (by decide)
    (by intro r hr; simp [akeys] at hr) "doc" "1" (by decide) rfl (by decide)).1

/-- C9: every LWW path resolves below `get_sync_path`: the `lww`
subdirectory of the configured folder (the folder itself only when its last
component is already `lww`); a file placed directly in the configured
folder is never picked up by the scan, and `.lww_state.json` lives inside
the subdirectory. -/
theorem claim_C9 (sf : List String) (h : sf.getLast? ≠ some "lww") :
    getSyncPath sf = sf ++ ["lww"] ∧
    (∀ sf' : List String, sf'.getLast? = some "lww" → getSyncPath sf' = sf') ∧
    (∀ name : String, ¬ scannedBy sf (sf ++ [name])) ∧
    lwwStateFilePath sf = sf ++ ["lww", ".lww_state.json"] := by
  have h1 : getSyncPath sf = sf ++ ["lww"] := by simp [getSyncPath, h]
  refine ⟨h1, ?_, ?_, ?_⟩
  · intro sf' h'
    simp [getSyncPath, h']
  · rintro name ⟨c, hc, he⟩
    rw [h1, List.append_assoc] at he
    have h2 := List.append_cancel_left he
    cases c with
    | nil => exact hc rfl
    | cons c0 cs => simp at h2
  · rw [lwwStateFilePath, h1, List.append_assoc]
    rfl

/-- C9 witness: the sync path and state-file location for a concrete
configured folder not named `lww`. -/
theorem claim_C9_witness :
    getSyncPath ["data", "sync"] = ["data", "sync"] ++ ["lww"] ∧
    lwwStateFilePath ["data", "sync"] =
      ["data", "sync"] ++ ["lww", ".lww_state.json"] :=
  ⟨(claim_C9 ["data", "sync"] (by decide)).1,
   (claim_C9 ["data", "sync"] (by decide)).2.2.2⟩

/-- C10: after every `ORSet.merge`, each surviving element keeps at least
one tag outside the merged tombstone set (merge garbage-collects the rest),
and the query returns exactly the keys of the element map. -/
theorem claim_C10 (st : ORState) (oe : List (String × List String))
    (orm : List String) :
    (∀ p ∈ (mergeOR st oe orm).1.elements,
      ∃ t ∈ p.2, t ∉ (mergeOR st oe orm).1.removed) ∧
    (∀ e, e ∈ orQuery (mergeOR st oe orm).1 ↔
      e ∈ akeys (mergeOR st oe orm).1.elements) :=
  ⟨fun p hp => mergeOR_live_invariant st oe orm p hp, fun _ => Iff.rfl⟩

/-- C10 witness: the invariant at a concrete merged state. -/
theorem claim_C10_witness :
    ∃ t ∈ (("f", ["t1"]) : String × List String).2,
      t ∉ (mergeOR ⟨[("f", ["t1"])], []⟩ [] []).1.removed :=
  (claim_C10 ⟨[("f", ["t1"])], []⟩ [] []).1 ("f", ["t1"]) (by decide)

end CRDT
